import Mathlib

/-!
# StoryScape realtime audio session core: a shallow embedding

Definitions below are translated from the repository's TypeScript sources:

* `src/utils/audioUtils.ts` — base64 codec (`encode`/`decode` built on
  `btoa`/`atob`), `decodeAudioData` (int16 → float32, divisor 32768).
* `src/unnamed/part_008` — `fastAudioBuffersToWav` (WAV muxer).
* `src/services/geminiLiveService.ts` — `createBlob` (capture-path
  float32 → int16, factor 32767 in both branches), `handleAudioOutput`
  (playback-clock scheduling), `stopAllAudio`, `stopAdventure`.
* `src/components/AdventureView.tsx` — `smartAppend`, `cleanText` and the
  transcript reconciliation in its `onTranscriptionUpdate` callback.
* `src/unnamed/part_002` (LanguageTutorView) — the variant
  `onTranscriptionUpdate` reconciler with the turn-taking force-commit.

Strings are modelled as `List Char` (JavaScript strings, indexed by code
unit); byte buffers as `List Nat` with entries `< 256`; audio sample values
and clock times as `ℚ` (the JS `number` operations used by these functions —
comparison, min/max, addition, multiplication by integer constants, and
truncation on assignment to an `Int16Array`/`DataView` — are exact on the
rationals involved).
-/

namespace StoryScape

/-! ## Binary codec (`src/utils/audioUtils.ts` lines 2-19)

`encode` builds a binary string whose code units are exactly the input
bytes (`String.fromCharCode`) and feeds it to `btoa`; `decode` applies
`atob` and reads the code units back (`charCodeAt`).  Both identities are
the identity on byte values, so the model works directly on byte lists and
embeds `btoa`/`atob` (RFC 4648 base64, the WHATWG behaviour on binary
strings).  Characters are modelled by their code points. -/

/-- Base64 alphabet: sextet value to character code. -/
def sextetToCode (n : Nat) : Nat :=
  if n < 26 then 65 + n
  else if n < 52 then 97 + (n - 26)
  else if n < 62 then 48 + (n - 52)
  else if n = 62 then 43
  else 47

/-- Character code to sextet value (inverse of `sextetToCode` on the alphabet). -/
def codeToSextet (c : Nat) : Nat :=
  if 65 ≤ c ∧ c ≤ 90 then c - 65
  else if 97 ≤ c ∧ c ≤ 122 then c - 97 + 26
  else if 48 ≤ c ∧ c ≤ 57 then c - 48 + 52
  else if c = 43 then 62
  else if c = 47 then 63
  else 0

/-- JavaScript `btoa` on a binary string, 3 input bytes per 4 output characters,
`=` (code 61) padding. -/
def btoa : List Nat → List Nat
  | [] => []
  | [b0] => [sextetToCode (b0 / 4), sextetToCode (b0 % 4 * 16), 61, 61]
  | [b0, b1] =>
      [sextetToCode (b0 / 4), sextetToCode (b0 % 4 * 16 + b1 / 16),
       sextetToCode (b1 % 16 * 4), 61]
  | b0 :: b1 :: b2 :: rest =>
      sextetToCode (b0 / 4) :: sextetToCode (b0 % 4 * 16 + b1 / 16) ::
      sextetToCode (b1 % 16 * 4 + b2 / 64) :: sextetToCode (b2 % 64) ::
      btoa rest

/-- JavaScript `atob` on well-formed base64 (the shape `btoa` produces). -/
def atob : List Nat → List Nat
  | c0 :: c1 :: c2 :: c3 :: rest =>
      if c2 = 61 then [codeToSextet c0 * 4 + codeToSextet c1 / 16]
      else if c3 = 61 then
        [codeToSextet c0 * 4 + codeToSextet c1 / 16,
         codeToSextet c1 % 16 * 16 + codeToSextet c2 / 4]
      else
        (codeToSextet c0 * 4 + codeToSextet c1 / 16) ::
        (codeToSextet c1 % 16 * 16 + codeToSextet c2 / 4) ::
        (codeToSextet c2 % 4 * 64 + codeToSextet c3) ::
        atob rest
  | _ => []

/-- Function `encode(bytes)` from `audioUtils.ts`: binary string of the bytes, then `btoa`. -/
def encode (bytes : List Nat) : List Nat := btoa bytes

/-- Function `decode(base64)` from `audioUtils.ts`: `atob`, then code units as bytes. -/
def decode (text : List Nat) : List Nat := atob text

/-! ## PCM frame converter

Truncation toward zero (the JS float→int conversion applied by
`Int16Array` element assignment, `| 0`, and `DataView.setInt16`). -/

/-- Truncation of a rational toward zero (`Int.div` is T-division). -/
def ratTrunc (q : ℚ) : Int := Int.tdiv q.num q.den

/-- Clamp to [-1, 1]: `Math.max(-1, Math.min(1, s))`. -/
def clamp1 (s : ℚ) : ℚ := max (-1) (min 1 s)

/-- Wrap an integer into the int16 value range (two's complement), as an
`Int16Array` store does. -/
def toInt16 (n : Int) : Int := (n + 32768) % 65536 - 32768

/-- Capture-path sample conversion from `createBlob`
(`geminiLiveService.ts` line 227): `Math.max(-1, Math.min(1, data[i])) * 32767`
stored into an `Int16Array` — the factor is 32767 for both signs. -/
def createBlobSample (s : ℚ) : Int := toInt16 (ratTrunc (clamp1 s * 32767))

/-- WAV-export sample conversion (`fastAudioBuffersToWav`, part_008 lines
85-86, and `audioBufferToWav`, audioUtils.ts lines 70-71):
`sample < 0 ? sample * 0x8000 : sample * 0x7fff` after clamping. -/
def wavSample (s : ℚ) : Int :=
  toInt16 (if clamp1 s < 0 then ratTrunc (clamp1 s * 32768) else ratTrunc (clamp1 s * 32767))

/-- Playback-path int16 → float conversion (`decodeAudioData`,
audioUtils.ts line 34): division by 32768. -/
def int16ToFloatSample (v : Int) : ℚ := (v : ℚ) / 32768

/-! ## Streaming playback scheduler (`geminiLiveService.ts` lines 249-280)

`handleAudioOutput` keeps `nextStartTime`:
`nextStartTime = max(nextStartTime, outputClockNow)`, schedules the chunk
at that instant (`source.start(nextStartTime)`) and then advances
`nextStartTime += buf.duration`.  A chunk is modelled by its arrival clock
reading and its duration. -/

/-- One scheduling step: given the clock state `nextStart`, the output
clock `now` at arrival and the chunk `duration`, return the start time and
the new clock state. -/
def scheduleStep (nextStart now duration : ℚ) : ℚ × ℚ :=
  (max nextStart now, max nextStart now + duration)

/-- Start times assigned to a sequence of chunks `(now, duration)`
processed in arrival order from clock state `s`. -/
def scheduleStarts (s : ℚ) : List (ℚ × ℚ) → List ℚ
  | [] => []
  | c :: rest => max s c.1 :: scheduleStarts (max s c.1 + c.2) rest

/-! ## WAV muxer (`src/unnamed/part_008`, `fastAudioBuffersToWav`) -/

/-- A decoded audio buffer: channel count, sample rate, and the channel-0
sample data (`getChannelData(0)`); for the mono buffers this muxer is used
with, `samples.length` is the buffer's frame count (`buffer.length`). -/
structure AudioBuf where
  numChannels : Nat
  sampleRate : Nat
  samples : List ℚ
deriving DecidableEq

/-- Write `DataView.setUint16 (littleEndian)`. -/
def u16le (n : Nat) : List Nat := [n % 256, n / 256 % 256]

/-- Write `DataView.setUint32 (littleEndian)`. -/
def u32le (n : Nat) : List Nat :=
  [n % 256, n / 256 % 256, n / 65536 % 256, n / 16777216 % 256]

/-- Write `DataView.setUint32 (bigEndian)`, used for the four-character tags. -/
def u32be (n : Nat) : List Nat :=
  [n / 16777216 % 256, n / 65536 % 256, n / 256 % 256, n % 256]

/-- Write `DataView.setInt16 (littleEndian)` of a converted sample: two's
complement bytes of `wavSample`. -/
def sampleBytes (s : ℚ) : List Nat :=
  [(wavSample s % 65536).toNat % 256, (wavSample s % 65536).toNat / 256]

/-- Function `fastAudioBuffersToWav` (part_008 lines 44-92) as the byte list of the
produced blob.  An empty input returns `new Blob([])` — an empty byte
blob.  Otherwise a 44-byte RIFF/fmt/data header is followed by the
channel-0 samples of every buffer, 2 bytes each; the `ArrayBuffer` is
allocated at `44 + dataSize` and zero-initialised, so any tail not covered
by the written samples (only possible for non-mono input) stays zero. -/
def fastAudioBuffersToWav (buffers : List AudioBuf) : List Nat :=
  match buffers with
  | [] => []
  | b0 :: _ =>
    let numChannels := b0.numChannels
    let sampleRate := b0.sampleRate
    let totalFrames := (buffers.map (fun b => b.samples.length)).sum
    let blockAlign := numChannels * 2
    let dataSize := totalFrames * blockAlign
    let totalSize := 44 + dataSize
    u32be 0x52494646 ++ u32le (totalSize - 8) ++ u32be 0x57415645 ++
    u32be 0x666d7420 ++ u32le 16 ++ u16le 1 ++ u16le numChannels ++
    u32le sampleRate ++ u32le (sampleRate * blockAlign) ++ u16le blockAlign ++
    u16le 16 ++ u32be 0x64617461 ++ u32le dataSize ++
    ((buffers.map (fun b => b.samples.flatMap sampleBytes)).flatten ++
     List.replicate (dataSize - 2 * totalFrames) 0)

/-- Read a little-endian 32-bit field at byte offset `off`
(`DataView.getUint32(off, true)`; absent bytes read as 0). -/
def readU32le (bytes : List Nat) (off : Nat) : Nat :=
  bytes.getD off 0 + 256 * bytes.getD (off + 1) 0 +
  65536 * bytes.getD (off + 2) 0 + 16777216 * bytes.getD (off + 3) 0

/-- The three-buffer export scenario: mono 24 kHz buffers of 100, 200 and
150 samples. -/
def demoBuffers : List AudioBuf :=
  [⟨1, 24000, List.replicate 100 0⟩, ⟨1, 24000, List.replicate 200 0⟩,
   ⟨1, 24000, List.replicate 150 0⟩]

/-! ## JavaScript string primitives

`List Char` strings; `jsWhitespace` is the class matched by
`String.prototype.trim` and by `\s` in the regexes of `cleanText`
(ECMAScript WhiteSpace ∪ LineTerminator). -/

/-- ECMAScript whitespace (trim / `\s`). -/
def jsWhitespace (c : Char) : Bool :=
  c = ' ' ∨ c = '\t' ∨ c = '\n' ∨ c = '\r' ∨ c.toNat = 11 ∨ c.toNat = 12 ∨
  c.toNat = 0xa0 ∨ c.toNat = 0x1680 ∨
  (0x2000 ≤ c.toNat ∧ c.toNat ≤ 0x200a) ∨ c.toNat = 0x2028 ∨
  c.toNat = 0x2029 ∨ c.toNat = 0x202f ∨ c.toNat = 0x205f ∨
  c.toNat = 0x3000 ∨ c.toNat = 0xfeff

/-- JavaScript `trimStart`. -/
def trimLeft (l : List Char) : List Char := l.dropWhile jsWhitespace

/-- JavaScript `trimEnd`. -/
def trimRight (l : List Char) : List Char :=
  (l.reverse.dropWhile jsWhitespace).reverse

/-- JavaScript `String.prototype.trim`. -/
def trim (l : List Char) : List Char := trimLeft (trimRight l)

/-- JavaScript `slice(-n)`: the last `n` elements. -/
def takeLast (n : Nat) (l : List Char) : List Char := l.drop (l.length - n)

/-! ## `smartAppend` (AdventureView.tsx lines 68-86 = part_002 lines 66-80) -/

/-- The overlap scan: `for (let len = k; len >= 2; len--)` looking for
`cleanPrev.slice(-len) === cleanNext.slice(0, len)`; returns the first
(largest) matching length. -/
def overlapScan (cp cn : List Char) : Nat → Option Nat
  | 0 => none
  | 1 => none
  | n + 2 =>
      if takeLast (n + 2) cp = cn.take (n + 2) then some (n + 2)
      else overlapScan cp cn (n + 1)

/-- Test `/^[।.,!?]/.test(cleanNext)`. -/
def startsWithPunct (l : List Char) : Bool :=
  match l.head? with
  | some c => c = '।' ∨ c = '.' ∨ c = ',' ∨ c = '!' ∨ c = '?'
  | none => false

/-- Condition `!prev.endsWith(' ') && !next.startsWith(' ') && !/^[।.,!?]/.test(cleanNext)`. -/
def needsSpaceB (prev next : List Char) : Bool :=
  !(prev.getLast? == some ' ') && !(next.head? == some ' ') &&
  !(startsWithPunct (trim next))

/-- Function `smartAppend(prev, next)`: empty-argument shortcuts, trimmed-suffix
dedup, overlap splice on the trimmed strings, else concatenation with an
optional single space. -/
def smartAppend (prev next : List Char) : List Char :=
  if prev = [] then trim next
  else if next = [] then prev
  else
    let cp := trim prev
    let cn := trim next
    if cn <:+ cp then prev
    else
      match overlapScan cp cn (min cp.length cn.length) with
      | some len => cp ++ cn.drop len
      | none => prev ++ (if needsSpaceB prev next then [' '] else []) ++ next

/-! ## `cleanText` (AdventureView.tsx lines 59-66) -/

/-- Class `\w` or Devanagari (`[\wऀ-ॿ]`). -/
def isWordChar (c : Char) : Bool :=
  ('A' ≤ c ∧ c ≤ 'Z') ∨ ('a' ≤ c ∧ c ≤ 'z') ∨ ('0' ≤ c ∧ c ≤ '9') ∨
  c = '_' ∨ (0x900 ≤ c.toNat ∧ c.toNat ≤ 0x97f)

/-- Drop characters up to and including the first occurrence of `target`;
`none` when `target` does not occur. -/
def dropAfterClose (target : Char) : List Char → Option (List Char)
  | [] => none
  | c :: rest => if c = target then some rest else dropAfterClose target rest

/-- Recursion core of `stripDelim`, structurally recursive on a fuel
bound that always dominates the list length (each recursive call strictly
shrinks the list, so starting the fuel at the list length is exact). -/
def stripDelimFuel (openC closeC : Char) : Nat → List Char → List Char
  | 0, _ => []
  | _ + 1, [] => []
  | fuel + 1, c :: rest =>
    if c = openC then
      match dropAfterClose closeC rest with
      | some rest2 => stripDelimFuel openC closeC fuel rest2
      | none => c :: stripDelimFuel openC closeC fuel rest
    else c :: stripDelimFuel openC closeC fuel rest

/-- One global replace of a `/x[^y]*y/g` delimiter pattern with the empty
string: each match runs from an opening delimiter to the first closing
delimiter after it. -/
def stripDelim (openC closeC : Char) (l : List Char) : List Char :=
  stripDelimFuel openC closeC l.length l

/-- Pattern `/^[\wऀ-ॿ]+[:：]\s*/` replaced once at the start. -/
def stripSpeaker (l : List Char) : List Char :=
  match l.takeWhile isWordChar, l.dropWhile isWordChar with
  | [], _ => l
  | _ :: _, c :: rest2 =>
      if c = ':' ∨ c = '：' then rest2.dropWhile jsWhitespace else l
  | _ :: _, [] => l

/-- Pattern `/\s+/g` replaced by a single space: each maximal whitespace run
becomes one `' '`. -/
def collapseWS : List Char → List Char
  | [] => []
  | c :: rest =>
    if jsWhitespace c then
      match rest with
      | [] => [' ']
      | d :: _ =>
        if jsWhitespace d then collapseWS rest else ' ' :: collapseWS rest
    else c :: collapseWS rest

/-- Function `cleanText` from AdventureView.tsx: strip `(...)`, strip `[...]`,
strip a leading `speaker:` tag, collapse whitespace, trim. -/
def cleanText (l : List Char) : List Char :=
  trim (collapseWS (stripSpeaker (stripDelim '[' ']' (stripDelim '(' ')' l))))

/-! ## Transcript reconcilers -/

/-- Speaker role. -/
inductive Role
  | user
  | model
deriving DecidableEq

/-- A committed transcript message (the wall-clock `timestamp` string of
the source, which no logic reads, is omitted). -/
structure Msg where
  role : Role
  text : List Char
deriving DecidableEq

/-- One `onTranscriptionUpdate(role, text, isFinal)` event. -/
structure TEvent where
  role : Role
  text : List Char
  isFinal : Bool
deriving DecidableEq

/-- State of the LanguageTutorView reconciler (part_002): committed
messages plus the two accumulator refs. -/
structure TutState where
  messages : List Msg
  modelAcc : List Char
  userAcc : List Char
deriving DecidableEq

/-- The part_002 `onTranscriptionUpdate` handler (lines 176-211).
A model-role event first force-commits a non-blank user accumulator;
finals commit the trimmed accumulator when non-blank and clear it. -/
def tutStep (s : TutState) (e : TEvent) : TutState :=
  if e.text = [] ∧ e.isFinal = false then s
  else
    match e.role with
    | Role.model =>
      let s1 : TutState :=
        if trim s.userAcc ≠ [] then
          ⟨s.messages ++ [⟨Role.user, trim s.userAcc⟩], s.modelAcc, []⟩
        else s
      let macc := smartAppend s1.modelAcc e.text
      if e.isFinal = true then
        if trim macc ≠ [] then
          ⟨s1.messages ++ [⟨Role.model, trim macc⟩], [], s1.userAcc⟩
        else ⟨s1.messages, macc, s1.userAcc⟩
      else ⟨s1.messages, macc, s1.userAcc⟩
    | Role.user =>
      let uacc := smartAppend s.userAcc e.text
      if e.isFinal = true then
        if trim uacc ≠ [] then
          ⟨s.messages ++ [⟨Role.user, trim uacc⟩], s.modelAcc, []⟩
        else ⟨s.messages, s.modelAcc, uacc⟩
      else ⟨s.messages, s.modelAcc, uacc⟩

/-- Run the part_002 reconciler from the initial state. -/
def tutRun (events : List TEvent) : TutState :=
  events.foldl tutStep ⟨[], [], []⟩

/-- State of the AdventureView reconciler: the committed messages plus
the two accumulator state variables (`currentNarratorText`,
`currentUserText`).  The accumulators evolve through functional updaters
(`setX(prev => ...)`) and drive the streaming display only. -/
structure AdvState where
  messages : List Msg
  narratorAcc : List Char
  userAcc : List Char
deriving DecidableEq

/-- The AdventureView `onTranscriptionUpdate` handler (lines 128-157):
events are cleaned by `cleanText`; partials accumulate into the state
variables by `smartAppend` via functional updaters.  The final-commit
branches, however, read `currentNarratorText` / `currentUserText`
directly from the callback's closure — the callback is created once in
the mount-only effect, so those captured values are the first render's
`''` forever.  The committed text is therefore
`smartAppend('', processedText)` (the cleaned final fragment alone,
trimmed), written below with the constant `[]` for the stale closure
read; a model-role final is appended unless this fragment-only text is
identical to an immediately preceding model message; a user-role final
is appended unconditionally. -/
def advStep (s : AdvState) (e : TEvent) : AdvState :=
  if e.text = [] ∧ e.isFinal = false then s
  else
    let processed := cleanText e.text
    if processed = [] ∧ e.isFinal = false then s
    else
      match e.role with
      | Role.model =>
        if e.isFinal = true then
          let full := trim (collapseWS (smartAppend [] processed))
          match s.messages.getLast? with
          | some m =>
            if m.role = Role.model ∧ m.text = full then
              ⟨s.messages, [], s.userAcc⟩
            else ⟨s.messages ++ [⟨Role.model, full⟩], [], s.userAcc⟩
          | none => ⟨s.messages ++ [⟨Role.model, full⟩], [], s.userAcc⟩
        else ⟨s.messages, smartAppend s.narratorAcc processed, s.userAcc⟩
      | Role.user =>
        if e.isFinal = true then
          let full := trim (collapseWS (smartAppend [] processed))
          ⟨s.messages ++ [⟨Role.user, full⟩], s.narratorAcc, []⟩
        else ⟨s.messages, s.narratorAcc, smartAppend s.userAcc processed⟩

/-- Run the AdventureView reconciler from the initial (empty-history) state. -/
def advRun (events : List TEvent) : AdvState :=
  events.foldl advStep ⟨[], [], []⟩

/-- No two consecutive committed messages are identical (same role and text). -/
def noConsecutiveDuplicates (l : List Msg) : Prop :=
  List.Chain' (fun a b => ¬(a.role = b.role ∧ a.text = b.text)) l

/-! ## Session manager `stopAdventure` (`geminiLiveService.ts` lines 276-291)

The external collaborators are modelled with their platform semantics:
`session.close()` is wrapped in `try {} catch {}` and so never propagates;
`MediaStreamTrack.stop()` on an already-ended track is a no-op;
`AudioBufferSourceNode.stop()` is wrapped in `try {} catch {}`;
`AudioContext.close()` on an already-closed context rejects with
`InvalidStateError` (Web Audio API), and `stopAdventure` awaits it
unguarded, so that rejection propagates out of `stopAdventure`. -/

/-- Lifecycle state of an `AudioContext`. -/
inductive CtxState
  | running
  | closed
deriving DecidableEq

/-- Observable state of a `StoryScapeService` instance (fields the stop
path touches). -/
structure SvcState where
  sessionClosed : Bool
  micTracksLive : Bool
  sourcesCount : Nat
  nextStartTime : ℚ
  inputCtx : Option CtxState
  outputCtx : Option CtxState
deriving DecidableEq

/-- Method `stopAllAudio`: stop every scheduled source (guarded by try/catch),
clear the set, reset the playback clock. -/
def stopAllAudio (s : SvcState) : SvcState :=
  { s with sourcesCount := 0, nextStartTime := 0 }

/-- Call `await ctx.close()`: resolves when running, rejects with
`InvalidStateError` when the context is already closed. -/
def closeCtx : Option CtxState → Except String (Option CtxState)
  | none => Except.ok none
  | some CtxState.running => Except.ok (some CtxState.closed)
  | some CtxState.closed => Except.error ("InvalidStateError")

/-- Method `stopAdventure()`: close the session (caught), stop microphone
tracks, hard-stop playback, then close both audio contexts (unguarded). -/
def stopAdventure (s : SvcState) : Except String SvcState := do
  let s1 : SvcState := { s with sessionClosed := true }
  let s2 : SvcState := { s1 with micTracksLive := false }
  let s3 : SvcState := stopAllAudio s2
  let ic ← closeCtx s3.inputCtx
  let oc ← closeCtx s3.outputCtx
  pure { s3 with inputCtx := ic, outputCtx := oc }

/-- A service on which `startAdventure` has completed and audio has
played: both contexts exist, a stream and scheduled sources are live. -/
def startedState : SvcState :=
  ⟨false, true, 2, 5, some CtxState.running, some CtxState.running⟩

/-- A freshly-constructed service, before `startAdventure`. -/
def freshState : SvcState := ⟨false, false, 0, 0, none, none⟩

/-- The state after one successful `stopAdventure` from `startedState`. -/
def stoppedOnceState : SvcState :=
  ⟨true, false, 0, 0, some CtxState.closed, some CtxState.closed⟩

/-! ## Helper lemmas: truncation and clamping -/

theorem ratTrunc_eq_floor {q : ℚ} (h : 0 ≤ q) : ratTrunc q = ⌊q⌋ := by
  rw [Rat.floor_def]
  exact Int.tdiv_eq_ediv (Rat.num_nonneg.mpr h) (Int.ofNat_nonneg _)

theorem ratTrunc_neg (q : ℚ) : ratTrunc (-q) = -ratTrunc q := by
  unfold ratTrunc
  rw [Rat.neg_num, Rat.neg_den, Int.neg_tdiv]

theorem ratTrunc_intCast (n : ℤ) : ratTrunc (n : ℚ) = n := by
  unfold ratTrunc
  rw [Rat.num_intCast, Rat.den_intCast]
  exact Int.tdiv_one n

/-- Truncation error is below one, and truncation moves toward zero. -/
theorem ratTrunc_bounds (q : ℚ) :
    |(ratTrunc q : ℚ) - q| < 1 ∧ |(ratTrunc q : ℚ)| ≤ |q| := by
  rcases le_or_lt 0 q with h | h
  · rw [ratTrunc_eq_floor h]
    have h1 : ((⌊q⌋ : ℤ) : ℚ) ≤ q := Int.floor_le q
    have h2 : q - 1 < ((⌊q⌋ : ℤ) : ℚ) := Int.sub_one_lt_floor q
    have h3 : (0 : ℚ) ≤ ((⌊q⌋ : ℤ) : ℚ) := by
      exact_mod_cast Int.floor_nonneg.mpr h
    constructor
    · rw [abs_sub_comm, abs_of_nonneg (by linarith)]
      linarith
    · rw [abs_of_nonneg h3, abs_of_nonneg h]
      exact h1
  · have hq : (0 : ℚ) ≤ -q := by linarith
    have he : ratTrunc q = -ratTrunc (-q) := by
      have := ratTrunc_neg (-q)
      rw [neg_neg] at this
      omega
    rw [he, ratTrunc_eq_floor hq]
    have h1 : ((⌊-q⌋ : ℤ) : ℚ) ≤ -q := Int.floor_le (-q)
    have h2 : -q - 1 < ((⌊-q⌋ : ℤ) : ℚ) := Int.sub_one_lt_floor (-q)
    have h3 : (0 : ℚ) ≤ ((⌊-q⌋ : ℤ) : ℚ) := by
      exact_mod_cast Int.floor_nonneg.mpr hq
    constructor
    · push_cast
      rw [abs_of_nonneg (by linarith)]
      linarith
    · push_cast
      rw [abs_neg, abs_of_nonneg h3, abs_of_nonpos (by linarith)]
      linarith

theorem ratTrunc_nonneg {q : ℚ} (h : 0 ≤ q) : 0 ≤ ratTrunc q := by
  rw [ratTrunc_eq_floor h]
  exact Int.floor_nonneg.mpr h

theorem ratTrunc_nonpos {q : ℚ} (h : q ≤ 0) : ratTrunc q ≤ 0 := by
  have he : ratTrunc q = -ratTrunc (-q) := by
    have := ratTrunc_neg (-q)
    rw [neg_neg] at this
    omega
  have : 0 ≤ ratTrunc (-q) := ratTrunc_nonneg (by linarith)
  omega

theorem clamp1_le_neg_one {s : ℚ} (h : s ≤ -1) : clamp1 s = -1 := by
  unfold clamp1
  rw [min_eq_right (by linarith), max_eq_left h]

theorem clamp1_one_le {s : ℚ} (h : 1 ≤ s) : clamp1 s = 1 := by
  unfold clamp1
  rw [min_eq_left h]
  norm_num

theorem clamp1_of_mem {s : ℚ} (h1 : -1 ≤ s) (h2 : s ≤ 1) : clamp1 s = s := by
  unfold clamp1
  rw [min_eq_right h2, max_eq_right h1]

theorem clamp1_mem (s : ℚ) : -1 ≤ clamp1 s ∧ clamp1 s ≤ 1 := by
  unfold clamp1
  constructor
  · exact le_max_left _ _
  · exact max_le (by norm_num) (min_le_left _ _)

theorem toInt16_eq {t : Int} (h1 : -32768 ≤ t) (h2 : t ≤ 32767) : toInt16 t = t := by
  unfold toInt16
  omega

/-- The capture-path conversion stays within [-32767, 32767] and never
wraps. -/
theorem createBlobSample_eq (s : ℚ) :
    createBlobSample s = ratTrunc (clamp1 s * 32767) ∧
    -32767 ≤ ratTrunc (clamp1 s * 32767) ∧ ratTrunc (clamp1 s * 32767) ≤ 32767 := by
  have hc := clamp1_mem s
  have habs : |clamp1 s * 32767| ≤ 32767 := by
    rw [abs_mul]
    have h1 : |clamp1 s| ≤ 1 := abs_le.mpr ⟨hc.1, hc.2⟩
    have h2 : |(32767 : ℚ)| = 32767 := by norm_num
    rw [h2]
    nlinarith
  have ht := (ratTrunc_bounds (clamp1 s * 32767)).2
  have hq : |(ratTrunc (clamp1 s * 32767) : ℚ)| ≤ 32767 := le_trans ht habs
  rw [abs_le] at hq
  have hrange : -32767 ≤ ratTrunc (clamp1 s * 32767) ∧
      ratTrunc (clamp1 s * 32767) ≤ 32767 :=
    ⟨by exact_mod_cast hq.1, by exact_mod_cast hq.2⟩
  refine ⟨?_, hrange.1, hrange.2⟩
  unfold createBlobSample
  exact toInt16_eq (by omega) hrange.2

/-- The export-path conversion stays within the int16 value range and
never wraps. -/
theorem wavSample_eq (s : ℚ) :
    wavSample s = (if clamp1 s < 0 then ratTrunc (clamp1 s * 32768)
                   else ratTrunc (clamp1 s * 32767)) ∧
    -32768 ≤ wavSample s ∧ wavSample s ≤ 32767 := by
  have hc := clamp1_mem s
  by_cases hneg : clamp1 s < 0
  · have hql : (-32768 : ℚ) ≤ clamp1 s * 32768 := by nlinarith
    have hqu : clamp1 s * 32768 ≤ 0 := by nlinarith
    have h1 : ratTrunc (clamp1 s * 32768) ≤ 0 := ratTrunc_nonpos hqu
    have h2 : -32768 ≤ ratTrunc (clamp1 s * 32768) := by
      have hb := (ratTrunc_bounds (clamp1 s * 32768)).2
      have : |(clamp1 s * 32768 : ℚ)| ≤ 32768 := by
        rw [abs_of_nonpos hqu]
        linarith
      have hq : |(ratTrunc (clamp1 s * 32768) : ℚ)| ≤ 32768 := le_trans hb this
      rw [abs_le] at hq
      exact_mod_cast hq.1
    have he : wavSample s = ratTrunc (clamp1 s * 32768) := by
      unfold wavSample
      rw [if_pos hneg]
      exact toInt16_eq h2 (by omega)
    rw [he, if_pos hneg]
    exact ⟨rfl, h2, by omega⟩
  · push_neg at hneg
    have hql : (0 : ℚ) ≤ clamp1 s * 32767 := by nlinarith
    have hqu : clamp1 s * 32767 ≤ 32767 := by nlinarith
    have h1 : 0 ≤ ratTrunc (clamp1 s * 32767) := ratTrunc_nonneg hql
    have h2 : ratTrunc (clamp1 s * 32767) ≤ 32767 := by
      have hb := (ratTrunc_bounds (clamp1 s * 32767)).2
      have : |(clamp1 s * 32767 : ℚ)| ≤ 32767 := by
        rw [abs_of_nonneg hql]
        exact hqu
      have hq : |(ratTrunc (clamp1 s * 32767) : ℚ)| ≤ 32767 := le_trans hb this
      rw [abs_le] at hq
      exact_mod_cast hq.2
    have he : wavSample s = ratTrunc (clamp1 s * 32767) := by
      unfold wavSample
      rw [if_neg (by linarith)]
      exact toInt16_eq (by omega) h2
    rw [he, if_neg (by linarith)]
    exact ⟨rfl, by omega, h2⟩

/-! ## C5 — float→int16 conversion -/

/-- C5 (counterexample): the claim says the conversion scales negative
samples by 32768, under which -1.0 maps to -32768; the capture-path
conversion (`createBlob`) multiplies by 32767 in both branches and maps
-1.0 to -32767. -/
theorem C5_counterexample :
    createBlobSample (-1) = -32767 ∧ createBlobSample (-1) ≠ -32768 := by
  have h : createBlobSample (-1) = -32767 := by
    rw [(createBlobSample_eq (-1)).1, clamp1_le_neg_one (by norm_num)]
    have e : ((-1 : ℚ) * 32767) = ((-32767 : ℤ) : ℚ) := by norm_num
    rw [e, ratTrunc_intCast]
  exact ⟨h, by rw [h]; decide⟩

/-- C5 (amended): every conversion clamps to [-1, 1] first and cannot
overflow int16.  The WAV-export conversion (`fastAudioBuffersToWav`,
`audioBufferToWav`) uses the distinct factors 32768 (negative) / 32767
(non-negative), so -1.0 maps to -32768; the capture-path conversion
(`createBlob`) uses 32767 for both signs, so -1.0 maps to -32767.
Out-of-range inputs are clamped, not rejected, and the conversions are
total functions.  -/
theorem C5_pcm_conversion_amended :
    (∀ s : ℚ, s ≤ -1 → wavSample s = -32768) ∧
    (∀ s : ℚ, 1 ≤ s → wavSample s = 32767) ∧
    (∀ s : ℚ, -32768 ≤ wavSample s ∧ wavSample s ≤ 32767) ∧
    (∀ s : ℚ, s ≤ -1 → createBlobSample s = -32767) ∧
    (∀ s : ℚ, 1 ≤ s → createBlobSample s = 32767) ∧
    (∀ s : ℚ, -32767 ≤ createBlobSample s ∧ createBlobSample s ≤ 32767) := by
  refine ⟨?_, ?_, ?_, ?_, ?_, ?_⟩
  · intro s h
    have := (wavSample_eq s).1
    rw [this, clamp1_le_neg_one h, if_pos (by norm_num)]
    have : ((-1 : ℚ) * 32768) = ((-32768 : ℤ) : ℚ) := by norm_num
    rw [this, ratTrunc_intCast]
  · intro s h
    have := (wavSample_eq s).1
    rw [this, clamp1_one_le h, if_neg (by norm_num)]
    have : ((1 : ℚ) * 32767) = ((32767 : ℤ) : ℚ) := by norm_num
    rw [this, ratTrunc_intCast]
  · intro s
    exact (wavSample_eq s).2
  · intro s h
    have := (createBlobSample_eq s).1
    rw [this, clamp1_le_neg_one h]
    have : ((-1 : ℚ) * 32767) = ((-32767 : ℤ) : ℚ) := by norm_num
    rw [this, ratTrunc_intCast]
  · intro s h
    have := (createBlobSample_eq s).1
    rw [this, clamp1_one_le h]
    have : ((1 : ℚ) * 32767) = ((32767 : ℤ) : ℚ) := by norm_num
    rw [this, ratTrunc_intCast]
  · intro s
    have h := createBlobSample_eq s
    rw [h.1]
    exact ⟨h.2.1, h.2.2⟩

/-- C5 witness: out-of-range inputs are clamped on both paths. -/
theorem C5_pcm_conversion_amended_witness :
    wavSample (-2) = -32768 ∧ createBlobSample (-2) = -32767 ∧
    wavSample 3 = 32767 ∧ createBlobSample 3 = 32767 :=
  ⟨C5_pcm_conversion_amended.1 (-2) (by norm_num),
   C5_pcm_conversion_amended.2.2.2.1 (-2) (by norm_num),
   C5_pcm_conversion_amended.2.1 3 (by norm_num),
   C5_pcm_conversion_amended.2.2.2.2.1 3 (by norm_num)⟩

/-! ## C10 — PCM round-trip tolerance -/

/-- C10 (counterexample): at s = 9/10 the capture-path round trip gives
29490/32768, which misses 9/10 by 3/81920 = 1.2/32768 ≥ 1/32768. -/
theorem C10_counterexample :
    ¬ |int16ToFloatSample (createBlobSample (9 / 10)) - 9 / 10| < 1 / 32768 := by
  have h : createBlobSample (9 / 10) = 29490 := by
    rw [(createBlobSample_eq (9 / 10)).1, clamp1_of_mem (by norm_num) (by norm_num)]
    rw [ratTrunc_eq_floor (by norm_num)]
    norm_num
  rw [h]
  unfold int16ToFloatSample
  have h2 : ((29490 : ℤ) : ℚ) / 32768 - 9 / 10 = -(3 / 81920) := by norm_num
  rw [h2, abs_neg, abs_of_nonneg (by norm_num)]
  norm_num

/-- C10 (amended): the round-trip error of the capture-path conversion
(`createBlob`, factor 32767) followed by the playback divisor 32768 is
strictly below 2/32768 on [-1, 1] (the claimed 1/32768 bound is attained
with equality at s = 1 and exceeded near s = 0.9). -/
theorem C10_pcm_roundtrip_amended (s : ℚ) (h1 : -1 ≤ s) (h2 : s ≤ 1) :
    |int16ToFloatSample (createBlobSample s) - s| < 2 / 32768 := by
  have hcl : clamp1 s = s := clamp1_of_mem h1 h2
  have hcb : createBlobSample s = ratTrunc (s * 32767) := by
    have := (createBlobSample_eq s).1
    rwa [hcl] at this
  rw [hcb]
  unfold int16ToFloatSample
  have habs_s : |s| ≤ 1 := abs_le.mpr ⟨h1, h2⟩
  have herr : |(ratTrunc (s * 32767) : ℚ) - s * 32767| < 1 :=
    (ratTrunc_bounds (s * 32767)).1
  have key : |(ratTrunc (s * 32767) : ℚ) - 32768 * s| < 2 := by
    have hsplit : (ratTrunc (s * 32767) : ℚ) - 32768 * s
        = ((ratTrunc (s * 32767) : ℚ) - s * 32767) + (-s) := by ring
    rw [hsplit]
    calc |((ratTrunc (s * 32767) : ℚ) - s * 32767) + (-s)|
        ≤ |(ratTrunc (s * 32767) : ℚ) - s * 32767| + |(-s)| := abs_add _ _
      _ < 2 := by rw [abs_neg]; linarith
  have hrw : |(ratTrunc (s * 32767) : ℚ) / 32768 - s|
      = |(ratTrunc (s * 32767) : ℚ) - 32768 * s| / 32768 := by
    rw [eq_div_iff (by norm_num : (32768 : ℚ) ≠ 0)]
    rw [← abs_of_nonneg (by norm_num : (0 : ℚ) ≤ 32768), ← abs_mul]
    congr 1
    field_simp
  rw [hrw]
  rw [div_lt_div_iff_of_pos_right (by norm_num : (0 : ℚ) < 32768)]
  exact key

/-- C10 witness: the amended bound at s = 1/2. -/
theorem C10_pcm_roundtrip_amended_witness :
    |int16ToFloatSample (createBlobSample (1 / 2)) - 1 / 2| < 2 / 32768 :=
  C10_pcm_roundtrip_amended (1 / 2) (by norm_num) (by norm_num)

/-! ## C3 — streaming playback scheduler -/

/-- C3: each chunk starts at `max(nextStart, now)` and advances the clock
by exactly its duration; the clock never decreases on a scheduling step
(durations are non-negative); and whenever a chunk arrives no later than
its predecessor's scheduled end, consecutive start times differ by exactly
the predecessor's duration. -/
theorem C3_playback_scheduler :
    (∀ s now d : ℚ, (scheduleStep s now d).1 = max s now ∧
        (scheduleStep s now d).2 = (scheduleStep s now d).1 + d) ∧
    (∀ s now d : ℚ, 0 ≤ d → s ≤ (scheduleStep s now d).2) ∧
    (∀ (s : ℚ) (chunks : List (ℚ × ℚ)) (i : Nat), i + 1 < chunks.length →
        (chunks.getD (i + 1) (0, 0)).1
            ≤ (scheduleStarts s chunks).getD i 0 + (chunks.getD i (0, 0)).2 →
        (scheduleStarts s chunks).getD (i + 1) 0
            = (scheduleStarts s chunks).getD i 0 + (chunks.getD i (0, 0)).2) := by
  refine ⟨fun s now d => ⟨rfl, rfl⟩, ?_, ?_⟩
  · intro s now d hd
    unfold scheduleStep
    have : s ≤ max s now := le_max_left _ _
    simp only []
    linarith
  · intro s chunks
    induction chunks generalizing s with
    | nil => intro i hi; simp at hi
    | cons c rest ih =>
      intro i hi harr
      match i with
      | 0 =>
        match rest, hi with
        | c1 :: rest', _ =>
          simp only [scheduleStarts, List.getD_cons_succ, List.getD_cons_zero] at harr ⊢
          exact max_eq_left harr
      | Nat.succ j =>
        simp only [scheduleStarts, List.getD_cons_succ] at harr ⊢
        exact ih (max s c.1 + c.2) j (by simpa using hi) harr

/-- C3 witness: two chunks, the second arriving exactly at the first's
scheduled end. -/
theorem C3_playback_scheduler_witness :
    (0 : ℚ) ≤ (scheduleStep 0 3 2).2 ∧
    (scheduleStarts 5 [((3 : ℚ), (2 : ℚ)), ((7 : ℚ), (4 : ℚ))]).getD 1 0
      = (scheduleStarts 5 [((3 : ℚ), (2 : ℚ)), ((7 : ℚ), (4 : ℚ))]).getD 0 0
        + (([((3 : ℚ), (2 : ℚ)), ((7 : ℚ), (4 : ℚ))].getD 0 (0, 0)).2) :=
  ⟨C3_playback_scheduler.2.1 0 3 2 (by norm_num),
   C3_playback_scheduler.2.2 5 [((3 : ℚ), (2 : ℚ)), ((7 : ℚ), (4 : ℚ))] 0
     (by norm_num)
     (by
       simp only [scheduleStarts, List.getD_cons_zero, List.getD_cons_succ]
       rw [max_eq_left (by norm_num : (3 : ℚ) ≤ 5)]
       norm_num)⟩

/-! ## C7 — WAV muxer on empty input -/

/-- C7 (counterexample): the claim says an empty input list produces a
valid 44-byte-header WAV with zero data length; `fastAudioBuffersToWav`
returns `new Blob([])` — an empty byte blob with no header at all. -/
theorem C7_counterexample :
    fastAudioBuffersToWav [] = [] ∧ (fastAudioBuffersToWav []).length ≠ 44 := by
  constructor
  · rfl
  · decide

/-- C7 (amended): an empty input list produces an empty byte blob (no
header), not an error — the function is total and simply returns the
empty list of bytes. -/
theorem C7_empty_wav_amended : fastAudioBuffersToWav [] = [] := rfl

/-! ## C8 — `stopAdventure` safety -/

/-- C8: `stopAdventure` is safe before `startAdventure` (all platform
handles are null-checked) and a first invocation closes the transport,
stops the microphone tracks, hard-stops playback and closes both
contexts; but a second invocation reaches `inputAudioContext.close()` on
an already-closed `AudioContext`, which rejects with `InvalidStateError`,
so the double invocation throws — contradicting the stated requirement. -/
theorem C8_double_stop_throws :
    stopAdventure freshState = Except.ok { freshState with sessionClosed := true } ∧
    stopAdventure startedState = Except.ok stoppedOnceState ∧
    stopAdventure stoppedOnceState = Except.error ("InvalidStateError") := by
  refine ⟨rfl, rfl, rfl⟩

/-! ## C6 — codec round-trip -/

theorem codeToSextet_sextetToCode : ∀ n, n < 64 → codeToSextet (sextetToCode n) = n := by
  decide

theorem sextetToCode_ne_61 : ∀ n, n < 64 → sextetToCode n ≠ 61 := by
  decide

/-- Decoding inverts encoding: `atob` inverts `btoa` on byte lists. -/
theorem atob_btoa : ∀ (bs : List Nat), (∀ b ∈ bs, b < 256) → atob (btoa bs) = bs
  | [], _ => rfl
  | [b0], h => by
      have hb0 : b0 < 256 := h b0 (by simp)
      simp only [btoa, atob, if_true]
      rw [codeToSextet_sextetToCode _ (by omega),
          codeToSextet_sextetToCode _ (by omega)]
      simp only [List.cons.injEq, and_true]
      omega
  | [b0, b1], h => by
      have hb0 : b0 < 256 := h b0 (by simp)
      have hb1 : b1 < 256 := h b1 (by simp)
      simp only [btoa, atob]
      rw [if_neg (sextetToCode_ne_61 _ (by omega))]
      simp only [if_true]
      rw [codeToSextet_sextetToCode _ (by omega),
          codeToSextet_sextetToCode _ (by omega),
          codeToSextet_sextetToCode _ (by omega)]
      simp only [List.cons.injEq, and_true]
      exact ⟨by omega, by omega⟩
  | b0 :: b1 :: b2 :: rest, h => by
      have hb0 : b0 < 256 := h b0 (by simp)
      have hb1 : b1 < 256 := h b1 (by simp)
      have hb2 : b2 < 256 := h b2 (by simp)
      have ih := atob_btoa rest (fun b hb => h b (by simp [hb]))
      simp only [btoa, atob]
      rw [if_neg (sextetToCode_ne_61 _ (by omega)),
          if_neg (sextetToCode_ne_61 _ (by omega))]
      rw [codeToSextet_sextetToCode _ (by omega),
          codeToSextet_sextetToCode _ (by omega),
          codeToSextet_sextetToCode _ (by omega),
          codeToSextet_sextetToCode _ (by omega)]
      rw [ih]
      simp only [List.cons.injEq, and_true]
      exact ⟨by omega, by omega, by omega⟩

/-- C6: `decode(encode(b)) == b` for every byte array. -/
theorem C6_codec_roundtrip (bytes : List Nat) (h : ∀ b ∈ bytes, b < 256) :
    decode (encode bytes) = bytes :=
  atob_btoa bytes h

/-- C6 witness: a buffer containing zero bytes and 0xFF bytes. -/
theorem C6_codec_roundtrip_witness :
    decode (encode [0, 0, 255, 255, 255, 7]) = [0, 0, 255, 255, 255, 7] :=
  C6_codec_roundtrip [0, 0, 255, 255, 255, 7] (by decide)

/-! ## C4 — WAV header correctness -/

theorem u16le_length (n : Nat) : (u16le n).length = 2 := rfl

theorem u32le_length (n : Nat) : (u32le n).length = 4 := rfl

theorem u32be_length (n : Nat) : (u32be n).length = 4 := rfl

theorem sampleBytes_length (s : ℚ) : (sampleBytes s).length = 2 := rfl

theorem flatMap_sampleBytes_length (l : List ℚ) :
    (l.flatMap sampleBytes).length = 2 * l.length := by
  induction l with
  | nil => rfl
  | cons a l ih =>
    simp only [List.flatMap_cons, List.length_append, sampleBytes_length, ih,
      List.length_cons]
    omega

theorem wavData_length (buffers : List AudioBuf) :
    ((buffers.map (fun b => b.samples.flatMap sampleBytes)).flatten).length
      = 2 * (buffers.map (fun b => b.samples.length)).sum := by
  induction buffers with
  | nil => rfl
  | cons b bs ih =>
    simp only [List.map_cons, List.flatten_cons, List.length_append, ih,
      flatMap_sampleBytes_length, List.sum_cons]
    omega

/-- C4: for a non-empty list of mono buffers (with a data size that fits
the 32-bit header field), the produced blob is exactly `44 + dataSize`
bytes long and its header's `dataSize` field at offset 40 reads exactly
`2 * totalSampleCount`. -/
theorem C4_wav_header (buffers : List AudioBuf) (hne : buffers ≠ [])
    (hmono : ∀ b ∈ buffers, b.numChannels = 1)
    (hsize : 2 * (buffers.map (fun b => b.samples.length)).sum < 4294967296) :
    (fastAudioBuffersToWav buffers).length
        = 44 + 2 * (buffers.map (fun b => b.samples.length)).sum ∧
    readU32le (fastAudioBuffersToWav buffers) 40
        = 2 * (buffers.map (fun b => b.samples.length)).sum := by
  match buffers, hne with
  | b0 :: bs, _ =>
    have hb0 : b0.numChannels = 1 := hmono b0 (List.mem_cons_self _ _)
    constructor
    · simp only [fastAudioBuffersToWav, hb0, one_mul, List.length_append,
        u32be_length, u32le_length, u16le_length, wavData_length,
        List.length_replicate]
      omega
    · simp only [fastAudioBuffersToWav, hb0, one_mul, readU32le, u32be, u32le,
        u16le, List.cons_append, List.nil_append, List.getD_cons_succ,
        List.getD_cons_zero]
      simp only [List.map_cons, List.sum_cons] at hsize ⊢
      omega

/-- C4 witness: the three-buffer 100/200/150-sample export scenario —
`dataSize` field 900, file length 944. -/
theorem C4_wav_header_witness :
    readU32le (fastAudioBuffersToWav demoBuffers) 40 = 900 ∧
    (fastAudioBuffersToWav demoBuffers).length = 944 := by
  have h := C4_wav_header demoBuffers (by decide)
    (by intro b hb; fin_cases hb <;> rfl) (by decide)
  refine ⟨?_, ?_⟩
  · rw [h.2]; decide
  · rw [h.1]; decide

/-! ## Helper lemmas: trim and suffixes -/

theorem trim_nil : trim [] = [] := rfl

theorem ne_nil_of_trim_ne {l : List Char} (h : trim l ≠ []) : l ≠ [] := by
  rintro rfl
  exact h trim_nil

theorem trimRight_append_of_ne {next : List Char} (u : List Char)
    (h : trimRight next ≠ []) : trimRight (u ++ next) = u ++ trimRight next := by
  have hne : (next.reverse.dropWhile jsWhitespace).isEmpty = false := by
    rw [List.isEmpty_eq_false]
    intro hnil
    exact h (by unfold trimRight; rw [hnil]; rfl)
  unfold trimRight
  rw [List.reverse_append, List.dropWhile_append, if_neg (by simp [hne]),
    List.reverse_append, List.reverse_reverse]

theorem trim_suffix_of_suffix {next prev : List Char} (h : next <:+ prev) :
    trim next <:+ trim prev := by
  obtain ⟨u, rfl⟩ := h
  by_cases h0 : trimRight next = []
  · have : trim next = [] := by unfold trim; rw [h0]; rfl
    rw [this]
    exact List.nil_suffix
  · unfold trim
    rw [trimRight_append_of_ne u h0]
    unfold trimLeft
    rw [List.dropWhile_append]
    split
    · exact List.suffix_rfl
    · exact (List.dropWhile_suffix _).trans (List.suffix_append _ _)

theorem mem_dropWhile_of_mem {p : Char → Bool} {l : List Char} {a : Char}
    (ha : a ∈ l) (hp : p a = false) : a ∈ l.dropWhile p := by
  have hsplit := List.takeWhile_append_dropWhile p l
  rw [← hsplit] at ha
  rcases List.mem_append.mp ha with h | h
  · have := List.mem_takeWhile_imp h
    rw [hp] at this
    cases this
  · exact h

theorem dropWhile_ne_nil_head {p : Char → Bool} :
    ∀ {l : List Char}, l.dropWhile p ≠ [] →
      ∃ c rest, l.dropWhile p = c :: rest ∧ p c = false := by
  intro l
  induction l with
  | nil => intro h; exact absurd rfl h
  | cons a as ih =>
    intro h
    by_cases hpa : p a = true
    · rw [List.dropWhile_cons_of_pos hpa] at h ⊢
      exact ih h
    · rw [List.dropWhile_cons_of_neg hpa]
      exact ⟨a, as, rfl, by simpa using hpa⟩

theorem trimRight_subset {l : List Char} : trimRight l ⊆ l := by
  intro c hc
  unfold trimRight at hc
  rw [List.mem_reverse] at hc
  have := (List.dropWhile_suffix jsWhitespace).subset hc
  exact List.mem_reverse.mp this

theorem trim_subset {l : List Char} : trim l ⊆ l := by
  intro c hc
  unfold trim trimLeft at hc
  exact trimRight_subset ((List.dropWhile_suffix jsWhitespace).subset hc)

theorem trim_eq_nil_iff {l : List Char} :
    trim l = [] ↔ ∀ c ∈ l, jsWhitespace c = true := by
  constructor
  · intro h c hc
    by_contra hw
    have hw' : jsWhitespace c = false := by simpa using hw
    have h1 : c ∈ l.reverse.dropWhile jsWhitespace :=
      mem_dropWhile_of_mem (List.mem_reverse.mpr hc) hw'
    have h2 : c ∈ trimRight l := by
      unfold trimRight
      exact List.mem_reverse.mpr h1
    have h3 : c ∈ trim l := by
      unfold trim trimLeft
      exact mem_dropWhile_of_mem h2 hw'
    rw [h] at h3
    cases h3
  · intro h
    unfold trim trimLeft
    rw [List.dropWhile_eq_nil_iff]
    intro c hc
    exact h c (trimRight_subset hc)

theorem trim_ne_nil_of_mem {l : List Char} {c : Char} (hc : c ∈ l)
    (hw : jsWhitespace c = false) : trim l ≠ [] := by
  intro h
  rw [trim_eq_nil_iff] at h
  rw [h c hc] at hw
  cases hw

theorem trim_ne_nil_head {l : List Char} (h : trim l ≠ []) :
    ∃ c rest, trim l = c :: rest ∧ jsWhitespace c = false := by
  unfold trim trimLeft at h ⊢
  exact dropWhile_ne_nil_head h

/-! ## Helper lemmas: `overlapScan` -/

theorem overlapScan_some (cp cn : List Char) :
    ∀ (k L : Nat), overlapScan cp cn k = some L →
      2 ≤ L ∧ L ≤ k ∧ takeLast L cp = cn.take L
  | 0, L, h => by simp [overlapScan] at h
  | 1, L, h => by simp [overlapScan] at h
  | (n + 2), L, h => by
      by_cases hc : takeLast (n + 2) cp = cn.take (n + 2)
      · rw [overlapScan, if_pos hc] at h
        cases h
        exact ⟨by omega, le_refl _, hc⟩
      · rw [overlapScan, if_neg hc] at h
        have := overlapScan_some cp cn (n + 1) L h
        exact ⟨this.1, by omega, this.2.2⟩

theorem overlapScan_max (cp cn : List Char) :
    ∀ (k L : Nat), overlapScan cp cn k = some L →
      ∀ l, l ≤ k → L < l → takeLast l cp ≠ cn.take l
  | 0, L, h => by simp [overlapScan] at h
  | 1, L, h => by simp [overlapScan] at h
  | (n + 2), L, h => by
      by_cases hc : takeLast (n + 2) cp = cn.take (n + 2)
      · rw [overlapScan, if_pos hc] at h
        cases h
        intro l h1 h2
        omega
      · rw [overlapScan, if_neg hc] at h
        intro l h1 h2
        rcases Nat.lt_or_ge l (n + 2) with hl | hl
        · exact overlapScan_max cp cn (n + 1) L h l (by omega) h2
        · have : l = n + 2 := by omega
          rw [this]
          exact hc

theorem overlapScan_none (cp cn : List Char) :
    ∀ k, overlapScan cp cn k = none →
      ∀ l, l ≤ k → 2 ≤ l → takeLast l cp ≠ cn.take l
  | 0, _ => by intro l h1 h2; omega
  | 1, _ => by intro l h1 h2; omega
  | (n + 2), h => by
      intro l h1 h2
      by_cases hc : takeLast (n + 2) cp = cn.take (n + 2)
      · rw [overlapScan, if_pos hc] at h
        cases h
      · rw [overlapScan, if_neg hc] at h
        rcases Nat.lt_or_ge l (n + 2) with hl | hl
        · exact overlapScan_none cp cn (n + 1) h l (by omega) h2
        · have : l = n + 2 := by omega
          rw [this]
          exact hc

theorem overlapScan_exists {cp cn : List Char} {k l0 : Nat} (h2 : 2 ≤ l0)
    (hk : l0 ≤ k) (heq : takeLast l0 cp = cn.take l0) :
    ∃ L, overlapScan cp cn k = some L := by
  cases h : overlapScan cp cn k with
  | some L => exact ⟨L, rfl⟩
  | none => exact absurd heq (overlapScan_none cp cn k h l0 hk h2)

/-! ## C1 — `smartAppend` -/

/-- C1 (counterexample): the claim describes the overlap splice on the raw
`prev`/`next`.  At `prev = " abc"`, `next = "bcd"` the longest raw overlap
is 2 (`"bc"`), so the claim predicts `prev ++ next[2:] = " abcd"`; the
code searches and splices the *trimmed* strings and returns `"abcd"`. -/
theorem C1_counterexample :
    takeLast 2 (" abc".toList) = List.take 2 ("bcd".toList) ∧
    takeLast 3 (" abc".toList) ≠ List.take 3 ("bcd".toList) ∧
    takeLast 4 (" abc".toList) ≠ List.take 4 ("bcd".toList) ∧
    smartAppend (" abc".toList) ("bcd".toList)
        ≠ " abc".toList ++ List.drop 2 ("bcd".toList) ∧
    smartAppend (" abc".toList) ("bcd".toList) = "abcd".toList := by
  refine ⟨?_, ?_, ?_, ?_, ?_⟩ <;> decide

/-- C1 (amended): `smartAppend` behaves as claimed with the overlap
search and splice performed on the whitespace-trimmed strings: empty
`prev` yields `next` trimmed; empty `next` yields `prev`; when `prev`
ends with `next` the result is `prev` unchanged; when some overlap of
length ≥ 2 exists between a suffix of `trim prev` and a prefix of
`trim next`, the largest such length `L` (scanned downward from the
minimum of the trimmed lengths) is spliced out:
`trim prev ++ (trim next)[L:]`; with no overlap the strings are
concatenated with one inserted space unless `prev` ends in a space,
`next` starts with a space, or the trimmed `next` starts with sentence
punctuation.  All five concrete examples of the claim hold. -/
theorem C1_smartAppend_amended :
    (∀ next, smartAppend [] next = trim next) ∧
    (∀ prev, smartAppend prev [] = prev) ∧
    (∀ prev next, next ≠ [] → next <:+ prev → smartAppend prev next = prev) ∧
    (∀ prev next, prev ≠ [] → next ≠ [] → ¬ trim next <:+ trim prev →
      ∀ l0, 2 ≤ l0 → l0 ≤ min (trim prev).length (trim next).length →
        takeLast l0 (trim prev) = (trim next).take l0 →
      ∃ L, 2 ≤ L ∧ L ≤ min (trim prev).length (trim next).length ∧
        takeLast L (trim prev) = (trim next).take L ∧
        (∀ l, l ≤ min (trim prev).length (trim next).length → L < l →
          takeLast l (trim prev) ≠ (trim next).take l) ∧
        smartAppend prev next = trim prev ++ (trim next).drop L) ∧
    (∀ prev next, prev ≠ [] → next ≠ [] → ¬ trim next <:+ trim prev →
      (∀ l, l ≤ min (trim prev).length (trim next).length → 2 ≤ l →
        takeLast l (trim prev) ≠ (trim next).take l) →
      smartAppend prev next
        = prev ++ (if needsSpaceB prev next then [' '] else []) ++ next) ∧
    smartAppend ("Hello wor".toList) ("world".toList) = "Hello world".toList ∧
    smartAppend ("Hello world".toList) ("world".toList) = "Hello world".toList ∧
    smartAppend ([]) ("Hi".toList) = "Hi".toList ∧
    smartAppend ("Hi".toList) ([]) = "Hi".toList ∧
    smartAppend ("Hello".toList) ("there".toList) = "Hello there".toList := by
  refine ⟨?_, ?_, ?_, ?_, ?_, ?_, ?_, ?_, ?_, ?_⟩
  · intro next
    simp [smartAppend]
  · intro prev
    by_cases hp : prev = []
    · rw [hp]
      simp [smartAppend, trim_nil]
    · simp [smartAppend, hp]
  · intro prev next hn hsuf
    have hp : prev ≠ [] := by
      rintro rfl
      exact hn (List.suffix_nil.mp hsuf)
    have hcs : trim next <:+ trim prev := trim_suffix_of_suffix hsuf
    simp only [smartAppend, if_neg hp, if_neg hn, if_pos hcs]
  · intro prev next hp hn hns l0 h2 hlk heq
    obtain ⟨L, hL⟩ := overlapScan_exists h2 hlk heq
    obtain ⟨g2, gk, geq⟩ := overlapScan_some _ _ _ _ hL
    refine ⟨L, g2, gk, geq, fun l hl hLl => overlapScan_max _ _ _ _ hL l hl hLl, ?_⟩
    simp only [smartAppend, if_neg hp, if_neg hn, if_neg hns, hL]
  · intro prev next hp hn hns hall
    cases hscan : overlapScan (trim prev) (trim next)
        (min (trim prev).length (trim next).length) with
    | some L =>
      have hsp := overlapScan_some _ _ _ _ hscan
      exact absurd hsp.2.2 (hall L hsp.2.1 hsp.1)
    | none =>
      simp only [smartAppend, if_neg hp, if_neg hn, if_neg hns, hscan]
  · decide
  · decide
  · decide
  · decide
  · decide

/-- C1 witness: the trimmed-suffix-dedup clause at `("Hello world",
"world")` and the no-overlap concatenation clause at `("Hello",
"there")`, with every hypothesis discharged at those inputs. -/
theorem C1_smartAppend_amended_witness :
    smartAppend ("Hello world".toList) ("world".toList) = "Hello world".toList ∧
    smartAppend ("Hello".toList) ("there".toList)
      = "Hello".toList
        ++ (if needsSpaceB ("Hello".toList) ("there".toList) then [' '] else [])
        ++ "there".toList :=
  ⟨C1_smartAppend_amended.2.2.1 ("Hello world".toList) ("world".toList)
      (by decide) (by decide),
   C1_smartAppend_amended.2.2.2.2.1 ("Hello".toList) ("there".toList)
      (by decide) (by decide) (by decide) (by decide)⟩

/-! ## C2 — turn-taking force-commit (part_002 reconciler) -/

/-- Appending preserves non-blankness: if the fragment passed to
`smartAppend` has a non-whitespace character, so does the result. -/
theorem trim_smartAppend_ne (prev next : List Char) (h : trim next ≠ []) :
    trim (smartAppend prev next) ≠ [] := by
  obtain ⟨c0, r0, he, hw⟩ := trim_ne_nil_head h
  have hc0tn : c0 ∈ trim next := by
    rw [he]
    exact List.mem_cons_self _ _
  have hc0n : c0 ∈ next := trim_subset hc0tn
  have hnn : next ≠ [] := ne_nil_of_trim_ne h
  by_cases hp : prev = []
  · rw [hp]
    simp only [smartAppend, if_pos]
    exact trim_ne_nil_of_mem hc0tn hw
  · by_cases hs : trim next <:+ trim prev
    · simp only [smartAppend, if_neg hp, if_neg hnn, if_pos hs]
      exact trim_ne_nil_of_mem (trim_subset (hs.subset hc0tn)) hw
    · cases hscan : overlapScan (trim prev) (trim next)
          (min (trim prev).length (trim next).length) with
      | some L =>
        simp only [smartAppend, if_neg hp, if_neg hnn, if_neg hs, hscan]
        obtain ⟨g2, gk, _⟩ := overlapScan_some _ _ _ _ hscan
        have hcpne : trim prev ≠ [] := by
          intro hnil
          rw [hnil] at gk
          simp at gk
          omega
        obtain ⟨c1, r1, he1, hw1⟩ := trim_ne_nil_head hcpne
        have hmem : c1 ∈ trim prev ++ (trim next).drop L := by
          refine List.mem_append_left _ ?_
          rw [he1]
          exact List.mem_cons_self _ _
        exact trim_ne_nil_of_mem hmem hw1
      | none =>
        simp only [smartAppend, if_neg hp, if_neg hnn, if_neg hs, hscan]
        have hmem : c0 ∈ prev ++ (if needsSpaceB prev next then [' '] else []) ++ next :=
          List.mem_append.mpr (Or.inr hc0n)
        exact trim_ne_nil_of_mem hmem hw

/-- A non-final user event with non-empty text only grows the user
accumulator. -/
theorem tutStep_user_nonfinal (s : TutState) (t : List Char) (ht : t ≠ []) :
    tutStep s ⟨Role.user, t, false⟩ = ⟨s.messages, s.modelAcc, smartAppend s.userAcc t⟩ := by
  simp only [tutStep]
  rw [if_neg (by simp [ht])]
  simp

/-- Folding a block of non-final user events accumulates their texts by
`smartAppend` and commits nothing. -/
theorem tutRun_user_block (ts : List (List Char)) :
    ∀ (s : TutState), (∀ t ∈ ts, t ≠ []) →
      List.foldl tutStep s (ts.map (fun t => ⟨Role.user, t, false⟩))
        = ⟨s.messages, s.modelAcc, List.foldl smartAppend s.userAcc ts⟩ := by
  induction ts with
  | nil => intro s _; simp
  | cons t ts ih =>
    intro s hts
    simp only [List.map_cons, List.foldl_cons]
    rw [tutStep_user_nonfinal s t (hts t (List.mem_cons_self _ _))]
    exact ih _ (fun x hx => hts x (List.mem_cons_of_mem _ hx))

/-- Accumulating non-blank fragments yields a non-blank accumulator. -/
theorem foldl_smartAppend_trim_ne :
    ∀ (ts : List (List Char)), (∀ t ∈ ts, trim t ≠ []) →
      ∀ a : List Char, (trim a ≠ [] ∨ ts ≠ []) →
        trim (List.foldl smartAppend a ts) ≠ []
  | [], h, a, hor => by
      simp only [List.foldl_nil]
      rcases hor with h1 | h1
      · exact h1
      · exact absurd rfl h1
  | t :: ts, h, a, _ => by
      simp only [List.foldl_cons]
      exact foldl_smartAppend_trim_ne ts (fun x hx => h x (List.mem_cons_of_mem _ hx))
        _ (Or.inl (trim_smartAppend_ne a t (h t (List.mem_cons_self _ _))))

/-- A model event processed while the user accumulator is empty either
commits one model message or commits nothing, and leaves the user
accumulator empty. -/
theorem tutStep_model_nouser (s : TutState) (hu : s.userAcc = [])
    (t : List Char) (f : Bool) :
    (∃ m, tutStep s ⟨Role.model, t, f⟩ = ⟨s.messages ++ [⟨Role.model, m⟩], [], []⟩) ∨
    (∃ macc, tutStep s ⟨Role.model, t, f⟩ = ⟨s.messages, macc, []⟩) := by
  by_cases hg : t = [] ∧ f = false
  · right
    refine ⟨s.modelAcc, ?_⟩
    rw [show tutStep s ⟨Role.model, t, f⟩ = s from by simp [tutStep, hg.1, hg.2]]
    rw [← hu]
  · have hfc : ¬ trim s.userAcc ≠ [] := by
      rw [hu]
      simp [trim_nil]
    simp only [tutStep]
    rw [if_neg hg, if_neg hfc]
    by_cases hf : f = true
    · rw [if_pos hf]
      by_cases hm : trim (smartAppend s.modelAcc t) ≠ []
      · left
        exact ⟨trim (smartAppend s.modelAcc t), by rw [if_pos hm, hu]⟩
      · right
        exact ⟨smartAppend s.modelAcc t, by rw [if_neg hm, hu]⟩
    · rw [if_neg hf]
      right
      exact ⟨smartAppend s.modelAcc t, by rw [hu]⟩

/-- Folding model events while the user accumulator is empty appends only
model messages. -/
theorem tutRun_model_block :
    ∀ (ms : List (List Char × Bool)) (s : TutState), s.userAcc = [] →
      ∃ app macc,
        List.foldl tutStep s (ms.map (fun p => ⟨Role.model, p.1, p.2⟩))
          = ⟨s.messages ++ app, macc, []⟩ ∧ ∀ m ∈ app, m.role = Role.model
  | [], s, hu => ⟨[], s.modelAcc, by simp; rw [← hu], by simp⟩
  | p :: ms, s, hu => by
      simp only [List.map_cons, List.foldl_cons]
      rcases tutStep_model_nouser s hu p.1 p.2 with ⟨m, hstep⟩ | ⟨macc1, hstep⟩
      · rw [hstep]
        obtain ⟨app, macc, heq, hall⟩ :=
          tutRun_model_block ms ⟨s.messages ++ [⟨Role.model, m⟩], [], []⟩ rfl
        rw [heq]
        refine ⟨⟨Role.model, m⟩ :: app, macc, by simp, ?_⟩
        intro x hx
        rcases List.mem_cons.mp hx with h | h
        · rw [h]
        · exact hall x h
      · rw [hstep]
        obtain ⟨app, macc, heq, hall⟩ :=
          tutRun_model_block ms ⟨s.messages, macc1, []⟩ rfl
        rw [heq]
        exact ⟨app, macc, rfl, hall⟩

/-- The first model event after an unfinalized user turn force-commits the
user accumulator as the first message. -/
theorem tutStep_first_model (s : TutState) (hmsg : s.messages = [])
    (hmacc : s.modelAcc = []) (hu : trim s.userAcc ≠ [])
    (t : List Char) (f : Bool) (ht : t ≠ []) :
    ∃ rest macc,
      tutStep s ⟨Role.model, t, f⟩ = ⟨⟨Role.user, trim s.userAcc⟩ :: rest, macc, []⟩ ∧
      ∀ m ∈ rest, m.role = Role.model := by
  simp only [tutStep]
  rw [if_neg (by simp [ht]), if_pos hu, hmsg, hmacc]
  simp only [List.nil_append]
  by_cases hf : f = true
  · rw [if_pos hf]
    by_cases hm : trim (smartAppend [] t) ≠ []
    · rw [if_pos hm]
      refine ⟨[⟨Role.model, trim (smartAppend [] t)⟩], [], by simp, ?_⟩
      intro m hm'
      simp at hm'
      rw [hm']
    · rw [if_neg hm]
      exact ⟨[], smartAppend [] t, by simp, by simp⟩
  · rw [if_neg hf]
    exact ⟨[], smartAppend [] t, by simp, by simp⟩

/-- C2 (counterexample): the force-commit exists only in the model-event
path.  For the alternating sequence `model "a" (partial), user "b"
(final)` — first role `model`, never marked final — the reconciler
commits the user message while the model fragment `"a"` is never
committed: a second-role message is committed before any first-role
message, and the claimed invariant fails. -/
theorem C2_counterexample :
    (tutRun [⟨Role.model, "a".toList, false⟩, ⟨Role.user, "b".toList, true⟩]).messages
        = [⟨Role.user, "b".toList⟩] ∧
    (tutRun [⟨Role.model, "a".toList, false⟩, ⟨Role.user, "b".toList, true⟩]).messages.countP
        (fun m => m.role == Role.model) = 0 ∧
    (tutRun [⟨Role.model, "a".toList, false⟩, ⟨Role.user, "b".toList, true⟩]).messages ≠ [] := by
  refine ⟨?_, ?_, ?_⟩ <;> decide

/-- C2 (amended): the turn-commit invariant holds when the first role is
the *user*: for a block of non-final user events followed by at least one
model event (all texts non-blank), the model-path force-commit makes the
user's single accumulated message the first committed message, and every
later committed message is the model's. -/
theorem C2_turn_commit_amended (users : List (List Char))
    (models : List (List Char × Bool)) (hu0 : users ≠ [])
    (hune : ∀ t ∈ users, trim t ≠ []) (hm0 : models ≠ [])
    (hmne : ∀ p ∈ models, trim p.1 ≠ []) :
    ∃ U rest,
      (tutRun (users.map (fun t => ⟨Role.user, t, false⟩)
          ++ models.map (fun p => ⟨Role.model, p.1, p.2⟩))).messages
        = ⟨Role.user, U⟩ :: rest ∧ ∀ m ∈ rest, m.role = Role.model := by
  unfold tutRun
  rw [List.foldl_append]
  rw [tutRun_user_block users _ (fun t ht => ne_nil_of_trim_ne (hune t ht))]
  have hAne : trim (List.foldl smartAppend [] users) ≠ [] :=
    foldl_smartAppend_trim_ne users hune [] (Or.inr hu0)
  match models, hm0, hmne with
  | p :: ms, _, hmne =>
    simp only [List.map_cons, List.foldl_cons]
    obtain ⟨rest1, macc1, hstep, hrest1⟩ :=
      tutStep_first_model ⟨[], [], List.foldl smartAppend [] users⟩ rfl rfl hAne
        p.1 p.2 (ne_nil_of_trim_ne (hmne p (List.mem_cons_self _ _)))
    rw [hstep]
    obtain ⟨app, macc2, heq, happ⟩ :=
      tutRun_model_block ms
        ⟨⟨Role.user, trim (List.foldl smartAppend [] users)⟩ :: rest1, macc1, []⟩ rfl
    rw [heq]
    refine ⟨trim (List.foldl smartAppend [] users), rest1 ++ app, by simp, ?_⟩
    intro m hm
    rcases List.mem_append.mp hm with h | h
    · exact hrest1 m h
    · exact happ m h

/-- C2 witness: one non-final user fragment followed by one final model
fragment commits the user message first, then only model messages. -/
theorem C2_turn_commit_amended_witness :
    ∃ U rest,
      (tutRun (["a".toList].map (fun t => (⟨Role.user, t, false⟩ : TEvent))
          ++ [("b".toList, true)].map
            (fun p => (⟨Role.model, p.1, p.2⟩ : TEvent)))).messages
        = ⟨Role.user, U⟩ :: rest ∧ ∀ m ∈ rest, m.role = Role.model :=
  C2_turn_commit_amended ["a".toList] [("b".toList, true)]
    (by decide) (by decide) (by decide) (by decide)

/-! ## C9 — idempotent-append guard (AdventureView reconciler) -/

/-- C9 (counterexample): the dedup guard exists only in the model branch.
Two identical final user events produce two consecutive identical user
messages, violating the claimed guard "for every role". -/
theorem C9_counterexample :
    (advRun [⟨Role.user, "hi".toList, true⟩, ⟨Role.user, "hi".toList, true⟩]).messages
        = [⟨Role.user, "hi".toList⟩, ⟨Role.user, "hi".toList⟩] ∧
    ¬ noConsecutiveDuplicates
        (advRun [⟨Role.user, "hi".toList, true⟩,
                 ⟨Role.user, "hi".toList, true⟩]).messages := by
  have h : (advRun [⟨Role.user, "hi".toList, true⟩,
      ⟨Role.user, "hi".toList, true⟩]).messages
      = [⟨Role.user, "hi".toList⟩, ⟨Role.user, "hi".toList⟩] := by decide
  refine ⟨h, ?_⟩
  unfold noConsecutiveDuplicates
  rw [h]
  intro hch
  exact (List.chain'_cons.mp hch).1 ⟨rfl, rfl⟩

/-- C9 (amended): the idempotent-append guard exists only for the model
role, and — because the commit path reads the accumulator state variables
from the stale mount-time closure, which always holds `''` — the
committed text is the cleaned final fragment alone
(`smartAppend('', cleanText(txt))`, collapsed and trimmed), regardless of
the accumulator contents: a final model event whose fragment-only
committed text equals the text of the immediately preceding message,
when that message is a model message, appends nothing; a final user
event always appends its fragment-only committed message, with no
comparison against the preceding message. -/
theorem C9_idempotent_guard_amended :
    (∀ (s : AdvState) (txt : List Char),
      s.messages.getLast?
          = some ⟨Role.model, trim (collapseWS (smartAppend [] (cleanText txt)))⟩ →
      (advStep s ⟨Role.model, txt, true⟩).messages = s.messages) ∧
    (∀ (s : AdvState) (txt : List Char),
      (advStep s ⟨Role.user, txt, true⟩).messages
        = s.messages ++ [⟨Role.user, trim (collapseWS (smartAppend [] (cleanText txt)))⟩]) := by
  constructor
  · intro s txt hlast
    simp only [advStep]
    rw [if_neg (by simp), if_neg (by simp), hlast]
    simp
  · intro s txt
    simp only [advStep]
    rw [if_neg (by simp), if_neg (by simp)]
    simp

/-- C9 witness: a duplicate final model fragment is skipped by the
guard, and a final user event arriving over a non-empty user accumulator
commits the cleaned final fragment alone — the accumulated prefix is
ignored by the stale-closure commit path. -/
theorem C9_idempotent_guard_amended_witness :
    (advStep ⟨[⟨Role.model, "hi".toList⟩], [], []⟩
        ⟨Role.model, "hi".toList, true⟩).messages = [⟨Role.model, "hi".toList⟩] ∧
    (advStep ⟨[], [], "foo".toList⟩
        ⟨Role.user, "hi".toList, true⟩).messages = [⟨Role.user, "hi".toList⟩] := by
  constructor
  · exact C9_idempotent_guard_amended.1 ⟨[⟨Role.model, "hi".toList⟩], [], []⟩
      ("hi".toList) (by decide)
  · rw [C9_idempotent_guard_amended.2 ⟨[], [], "foo".toList⟩ ("hi".toList)]
    decide

end StoryScape
